import Mathlib

/-!
Verification of the ASL sign-language HMM recognizer and model selectors
(`my_recognizer.py`, `my_model_selectors.py`).

The external collaborators (hmmlearn's `GaussianHMM.fit`/`score`, sklearn's
`KFold`, `combine_sequences`, `SinglesData`) are modelled as abstract oracle
environments: a fit or score either yields a value or raises (`none`/`false`).
Log-likelihood scores, floats in the source, are embedded as rationals, and
word labels, strings in the source, as an opaque label type `Word := ℕ`.
-/

namespace SignHMM

/-- Word labels (strings in the source) as an opaque label type. -/
abbrev Word := ℕ

/-! ### Recognizer: `recognize` in src/my_recognizer.py -/

/-- A trained word model as the recognizer uses it: `model.score(test_X,
test_Xlength)` on a test item either yields a log-likelihood or raises
(`none`). -/
structure RecModel where
  score : ℕ → Option ℚ

/-- A Python dict from words to log-likelihoods, in insertion order. -/
abbrev ProbMap := List (Word × ℚ)

/-- Python dict assignment `d[k] = v`: overwrite in place when the key is
present, append otherwise. -/
def dictInsert (d : ProbMap) (k : Word) (v : ℚ) : ProbMap :=
  if d.any (fun p => p.1 = k) then d.map (fun p => if p.1 = k then (k, v) else p)
  else d ++ [(k, v)]

/-- Python dict read `d[k]`: the value at the first matching key. -/
def assocLookup : ProbMap → Word → Option ℚ
  | [], _ => none
  | p :: rest, k => if p.1 = k then some p.2 else assocLookup rest k

/-- The comparison `score > max_prob`, where `max_prob` starts at
`float("-inf")`, embedded as `none`. -/
def gtMax (s : ℚ) (m : Option ℚ) : Bool :=
  match m with
  | none => true
  | some v => decide (v < s)

/-- The recognizer's state inside one test item: `prob_map`, `max_prob`
(`none` standing for `-inf`), and the function-level `best_word`. -/
structure RecInner where
  probMap : ProbMap
  maxProb : Option ℚ
  bestWord : Option Word

/-- One iteration of `for word, model in models.items()`: score the item with
the bare try/except substituting `-1000`, record the score in `prob_map`,
and update `max_prob` and `best_word` on a strictly greater score. -/
def recWordStep (it : ℕ) (st : RecInner) (wm : Word × RecModel) : RecInner :=
  let s : ℚ := (wm.2.score it).getD (-1000)
  let pm := dictInsert st.probMap wm.1 s
  if gtMax s st.maxProb then ⟨pm, some s, some wm.1⟩ else ⟨pm, st.maxProb, st.bestWord⟩

/-- The recognizer's state across test items: the two result lists and the
carried `best_word`, which is initialised once before the item loop. -/
structure RecState where
  probabilities : List ProbMap
  guesses : List (Option Word)
  bestWord : Option Word

/-- One iteration of the loop over the test set's word ids: run the word loop
with a fresh `prob_map` and `max_prob = -inf` but the carried `best_word`,
then append the item's dict and guess. -/
def recItemStep (models : List (Word × RecModel)) (st : RecState) (it : ℕ) : RecState :=
  let inner := models.foldl (recWordStep it) ⟨[], none, st.bestWord⟩
  ⟨st.probabilities ++ [inner.probMap], st.guesses ++ [inner.bestWord], inner.bestWord⟩

/-- `recognize(models, test_set)` from src/my_recognizer.py. `models` lists
the dict's (word, model) pairs in iteration order; `items` lists the test
set's word ids in `get_all_Xlengths()` key order (ordered by word_id).
`best_word = None` is set once, before the item loop. -/
def recognize (models : List (Word × RecModel)) (items : List ℕ) :
    List ProbMap × List (Option Word) :=
  let st := items.foldl (recItemStep models) ⟨[], [], none⟩
  (st.probabilities, st.guesses)

/-- The probability dict the word loop builds for one test item (its
`prob_map` component, which does not depend on the carried `best_word`). -/
def itemProbMap (models : List (Word × RecModel)) (it : ℕ) : ProbMap :=
  models.foldl (fun pm wm => dictInsert pm wm.1 ((wm.2.score it).getD (-1000))) []

/-- The sequence of guesses `recognize` emits, one per item, threading the
function-level `best_word` from item to item. -/
def guessSeq (models : List (Word × RecModel)) : Option Word → List ℕ → List (Option Word)
  | _, [] => []
  | b, it :: rest =>
    let st := models.foldl (recWordStep it) ⟨[], none, b⟩
    st.bestWord :: guessSeq models st.bestWord rest

/-! ### `ModelSelector.base_model` and `SelectorConstant` -/

/-- A fitted `GaussianHMM`, identified by its number of hidden states and a
tag distinguishing fits on different data. -/
structure GModel where
  nComponents : ℕ
  tag : ℕ

/-- Environment for `base_model`: the external
`GaussianHMM(n_components=n, ...).fit(self.X, self.lengths)` call, `none`
when it raises. -/
structure ConstEnv where
  fit : ℕ → Option GModel

/-- `ModelSelector.base_model`: try the fit, return the model, `None` on any
exception. -/
def base_model (env : ConstEnv) (numStates : ℕ) : Option GModel :=
  env.fit numStates

/-- `SelectorConstant.select`: `self.base_model(self.n_constant)`. The
`min_n_components`/`max_n_components` parameters are carried but unread. -/
def constantSelect (env : ConstEnv) (nConstant minC maxC : ℕ) : Option GModel :=
  base_model env nConstant

/-! ### `SelectorBIC.select` -/

/-- Environment for `SelectorBIC.select`: `fitScore i` is
`hmm_model.score(self.X, self.lengths)` for the model freshly fitted with `i`
states (`none` when fit or score raises); `logN` is `math.log(N)` for
`N = len(self.lengths)`; `lengths0` is `self.lengths[0]`; `d` is
`len(self.X[0])`. -/
structure BicEnv where
  fitScore : ℕ → Option ℚ
  logN : ℚ
  lengths0 : ℕ
  d : ℕ

/-- `bic_score = -2 * logL + p * math.log(N)` with
`p = i * i + 2 * i * len(self.X[0]) - 1`. -/
def bicScore (env : BicEnv) (i : ℕ) (logL : ℚ) : ℚ :=
  -2 * logL + (((i * i + 2 * i * env.d : ℤ) - 1 : ℤ) : ℚ) * env.logN

/-- The comparison `bic_score < best_score`, where `best_score` starts at
`float("inf")`, embedded as `none`. -/
def ltMin (b : ℚ) (best : Option (ℚ × ℕ)) : Bool :=
  match best with
  | none => true
  | some q => decide (b < q.1)

/-- The candidate loop of `SelectorBIC.select`: `continue` when
`i >= self.lengths[0]`, `return None` on any exception, keep the strictly
lowest BIC. The best model is identified by its candidate state count. -/
def bicLoop (env : BicEnv) : Option (ℚ × ℕ) → List ℕ → Option (ℚ × ℕ)
  | best, [] => best
  | best, i :: rest =>
    if env.lengths0 ≤ i then bicLoop env best rest
    else
      match env.fitScore i with
      | none => none
      | some logL =>
        let b := bicScore env i logL
        bicLoop env (if ltMin b best then some (b, i) else best) rest

/-- `SelectorBIC.select` over `range(self.min_n_components,
self.max_n_components + 1)`. -/
def bicSelect (env : BicEnv) (minC maxC : ℕ) : Option ℕ :=
  (bicLoop env none (List.range' minC (maxC + 1 - minC))).map Prod.snd

/-! ### `SelectorDIC.select` -/

/-- Environment for `SelectorDIC.select`: `words` is the key list of
`self.words` in iteration order; `lengths0 w` is `lengths[0]` of word `w`
(for `self.lengths[0]` take `lengths0 thisWord`); `thisScore i` is this
word's fit-and-score at `i` states (`none` when either raises, caught by the
outer except); `fitOther w i = false` when fitting the other word raises
(also caught by the outer except, abandoning the candidate); `scoreOther w i`
is the other model's score, `none` when it raises (caught by the inner
except, which substitutes 0). -/
structure DicEnv where
  words : List Word
  thisWord : Word
  lengths0 : Word → ℕ
  thisScore : ℕ → Option ℚ
  fitOther : Word → ℕ → Bool
  scoreOther : Word → ℕ → Option ℚ

/-- The comparison `dic_score > best_score`, where `best_score` starts at
`float("-inf")`, embedded as `none`. -/
def gtNeg (v : ℚ) (best : Option (ℚ × ℕ)) : Bool :=
  match best with
  | none => true
  | some q => decide (q.1 < v)

/-- The loop `for word in self.words` of one DIC candidate `i`: skip
`this_word` and other words with `i > lengths[0]`; a raising other-word fit
aborts the candidate through the outer except, keeping the best found so
far; a raising other-word score counts as 0; after each processed word,
`dic_score = this_model_score - (1 / m_count) * other_model_scores` and the
best is updated on a strictly greater score. -/
def dicWordLoop (env : DicEnv) (i : ℕ) (ts : ℚ) :
    ℚ → ℕ → Option (ℚ × ℕ) → List Word → Option (ℚ × ℕ)
  | _, _, best, [] => best
  | others, m, best, w :: rest =>
    if w = env.thisWord then dicWordLoop env i ts others m best rest
    else if env.lengths0 w < i then dicWordLoop env i ts others m best rest
    else if env.fitOther w i then
      let s := (env.scoreOther w i).getD 0
      let dic := ts - (1 / ((m + 1 : ℕ) : ℚ)) * (others + s)
      dicWordLoop env i ts (others + s) (m + 1)
        (if gtNeg dic best then some (dic, i) else best) rest
    else best

/-- The candidate loop of `SelectorDIC.select`: skip `i > self.lengths[0]`
and candidates whose own fit or score raises (outer except, `continue`). -/
def dicCandLoop (env : DicEnv) : Option (ℚ × ℕ) → List ℕ → Option (ℚ × ℕ)
  | best, [] => best
  | best, i :: rest =>
    if env.lengths0 env.thisWord < i then dicCandLoop env best rest
    else
      match env.thisScore i with
      | none => dicCandLoop env best rest
      | some ts => dicCandLoop env (dicWordLoop env i ts 0 0 best env.words) rest

/-- `SelectorDIC.select` over `range(self.min_n_components,
self.max_n_components + 1)`. -/
def dicSelect (env : DicEnv) (minC maxC : ℕ) : Option ℕ :=
  (dicCandLoop env none (List.range' minC (maxC + 1 - minC))).map Prod.snd

/-- The running `dic_score` values candidate `i` produces, in order: one
after each processed other word, truncated at an other-word fit failure,
empty for a skipped or failing candidate. -/
def dicValues (env : DicEnv) (i : ℕ) (ts : ℚ) : ℚ → ℕ → List Word → List ℚ
  | _, _, [] => []
  | others, m, w :: rest =>
    if w = env.thisWord then dicValues env i ts others m rest
    else if env.lengths0 w < i then dicValues env i ts others m rest
    else if env.fitOther w i then
      let s := (env.scoreOther w i).getD 0
      (ts - (1 / ((m + 1 : ℕ) : ℚ)) * (others + s)) :: dicValues env i ts (others + s) (m + 1) rest
    else []

/-- All running `dic_score` values of candidate `i`. -/
def effScores (env : DicEnv) (i : ℕ) : List ℚ :=
  if env.lengths0 env.thisWord < i then []
  else
    match env.thisScore i with
    | none => []
    | some ts => dicValues env i ts 0 0 env.words

/-- Generic strictly-greater-wins fold over tagged values, `none` standing
for `float("-inf")`. -/
def runBestP : Option (ℚ × ℕ) → List (ℚ × ℕ) → Option (ℚ × ℕ)
  | best, [] => best
  | best, p :: rest => runBestP (if gtNeg p.1 best then some p else best) rest

/-! ### `SelectorCV.select` -/

/-- Environment for `SelectorCV.select`: `seqLen` is
`len(word_sequences)`; for candidate `i` and fold `k`, `fitOk i k = false`
when the fold's fit raises, and `score i k` is the fold's
`hmm_model.score(Y, Y_lengths)`, `none` when it raises. -/
structure CvEnv where
  seqLen : ℕ
  fitOk : ℕ → ℕ → Bool
  score : ℕ → ℕ → Option ℚ

/-- The comparison `avg_score > best_score`, `best_score` starting at
`float("-inf")` (`none`). -/
def cvGt (v : ℚ) (best : Option ℚ) : Bool :=
  match best with
  | none => true
  | some b => decide (b < v)

/-- The fold loop of one CV candidate `i`: each fold fits and scores inside a
try/except whose `continue` skips a raising fold; the Python variable
`hmm_model` (`last`) is reassigned exactly when a fit succeeds and keeps its
old value otherwise, and the fold's log-likelihood is added to `total_score`
only when the score also succeeds. A fold model is identified by its
(candidate, fold) pair. -/
def cvFoldLoop (env : CvEnv) (i : ℕ) :
    ℚ → Option (ℕ × ℕ) → List ℕ → ℚ × Option (ℕ × ℕ)
  | total, last, [] => (total, last)
  | total, last, k :: rest =>
    if env.fitOk i k then
      match env.score i k with
      | some logL => cvFoldLoop env i (total + logL) (some (i, k)) rest
      | none => cvFoldLoop env i total (some (i, k)) rest
    else cvFoldLoop env i total last rest

/-- The candidate loop of `SelectorCV.select`: `avg_score = total_score /
num_splits`; on a strictly greater average, `best_model = hmm_model` reads
the last successfully fitted fold model — a `NameError`
(`Except.error`) when no fit has succeeded yet in the whole call. -/
def cvCandLoop (env : CvEnv) (ns : ℕ) :
    Option ℚ → Option (ℕ × ℕ) → Option (ℕ × ℕ) → List ℕ → Except Unit (Option (ℕ × ℕ))
  | _, bm, _, [] => Except.ok bm
  | best, bm, last, i :: rest =>
    let r := cvFoldLoop env i 0 last (List.range ns)
    let avg := r.1 / ((ns : ℕ) : ℚ)
    if cvGt avg best then
      match r.2 with
      | none => Except.error ()
      | some mdl => cvCandLoop env ns (some avg) (some mdl) r.2 rest
    else cvCandLoop env ns best bm r.2 rest

/-- `SelectorCV.select`: `num_splits = self.min_n_components`; return `None`
when `len(word_sequences) < num_splits`; `KFold(n_splits=num_splits)` raises
(sklearn requires at least 2 splits) when `num_splits < 2`; candidates range
over `range(self.min_n_components, self.max_n_components)`, the upper bound
excluded. -/
def cvSelect (env : CvEnv) (minC maxC : ℕ) : Except Unit (Option (ℕ × ℕ)) :=
  if env.seqLen < minC then Except.ok none
  else if minC < 2 then Except.error ()
  else cvCandLoop env minC none none none (List.range' minC (maxC - minC))

/-! ### The claims' own scoring criteria, following the spec's words -/

/-- Claim C2's property, following the spec's words: whatever model
`SelectorBIC.select` returns achieves the lowest BIC among all candidate
state counts from `min_n_components` to `max_n_components` inclusive. -/
def bicClaimHolds (env : BicEnv) (minC maxC : ℕ) : Prop :=
  ∀ j, bicSelect env minC maxC = some j →
    ∃ logL, env.fitScore j = some logL ∧
      ∀ i logLi, minC ≤ i → i ≤ maxC → env.fitScore i = some logLi →
        bicScore env j logL ≤ bicScore env i logLi

/-- The words of `self.words` other than `this_word`. -/
def dicOtherWords (env : DicEnv) : List Word :=
  env.words.filter (fun w => w ≠ env.thisWord)

/-- Claim C4's DIC formula, following the spec's words:
`DIC = logL(this_word) - (1/(M-1)) * SUM(logL(other words))`, the sum over
all `M - 1` other words at the same state count. -/
def dicFullScore (env : DicEnv) (i : ℕ) : Option ℚ :=
  (env.thisScore i).map (fun ts =>
    ts - (1 / (((dicOtherWords env).length : ℕ) : ℚ)) *
      ((dicOtherWords env).map (fun w => (env.scoreOther w i).getD 0)).sum)

/-- Claim C4's property, following the spec's words: the returned model
maximises the final DIC score over candidates from `min_n_components` to
`max_n_components` inclusive. -/
def dicClaimHolds (env : DicEnv) (minC maxC : ℕ) : Prop :=
  ∀ j, dicSelect env minC maxC = some j →
    ∀ i di dj, minC ≤ i → i ≤ maxC →
      dicFullScore env i = some di → dicFullScore env j = some dj → di ≤ dj

/-- Claim C3's average: the total fold score of candidate `i` divided by the
number of folds. -/
def cvAvg (env : CvEnv) (ns i : ℕ) : ℚ :=
  ((List.range ns).map (fun k => (env.score i k).getD 0)).sum / ((ns : ℕ) : ℚ)

/-- Claim C3's property, following the spec's words: `SelectorCV.select`
returns the model whose average fold log-likelihood is highest among
candidates from `min_n_components` to `max_n_components` inclusive. -/
def cvClaimHolds (env : CvEnv) (minC maxC : ℕ) : Prop :=
  ∀ mdl, cvSelect env minC maxC = Except.ok (some mdl) →
    ∀ i, minC ≤ i → i ≤ maxC → cvAvg env minC i ≤ cvAvg env minC mdl.1

/-! ### Concrete environments for counterexamples and witnesses -/

/-- BIC counterexample environment: state count 3 is skipped by
`i >= self.lengths[0]` although it would have the lowest BIC. -/
def bicEnvCex : BicEnv where
  fitScore := fun i => if i = 2 then some 0 else if i = 3 then some 100 else none
  logN := 1
  lengths0 := 3
  d := 1

/-- BIC witness environment: every candidate fits, constant scores. -/
def bicEnvWit : BicEnv where
  fitScore := fun _ => some 0
  logN := 0
  lengths0 := 100
  d := 1

/-- BIC environment in which every fit raises. -/
def bicEnvFail : BicEnv where
  fitScore := fun _ => none
  logN := 1
  lengths0 := 100
  d := 1

/-- DIC counterexample environment: at 3 states the running partial average
spikes to `10 - (-1000) = 1010` after word `1`, although the final DIC of 3
states is `-5`, below the `5` of 2 states. -/
def dicEnvCex : DicEnv where
  words := [0, 1, 2]
  thisWord := 0
  lengths0 := fun _ => 100
  thisScore := fun i => if i = 2 then some 5 else if i = 3 then some 10 else none
  fitOther := fun _ _ => true
  scoreOther := fun w i =>
    if i = 3 then (if w = 1 then some (-1000) else some 1030) else some 0

/-- DIC witness environment: two words, all scores defined. -/
def dicEnvWit : DicEnv where
  words := [0, 1]
  thisWord := 0
  lengths0 := fun _ => 100
  thisScore := fun _ => some 1
  fitOther := fun _ _ => true
  scoreOther := fun _ _ => some 0

/-- CV counterexample environment: candidate 3 has the highest fold average
but `range(min_n_components, max_n_components)` never evaluates it. -/
def cvEnvCex : CvEnv where
  seqLen := 5
  fitOk := fun _ _ => true
  score := fun i _ => if i = 2 then some 0 else some 100

/-- CV witness environment: every fold fits and scores, candidate `i`
averaging `i`. -/
def cvEnvWit : CvEnv where
  seqLen := 5
  fitOk := fun _ _ => true
  score := fun i _ => some (i : ℚ)

/-- Recognizer witness models: two words with distinct constant scores. -/
def recModelsWit : List (Word × RecModel) :=
  [(7, ⟨fun _ => some 1⟩), (8, ⟨fun _ => some 2⟩)]

/-- A model whose scoring always raises. -/
def raisingModel : RecModel := ⟨fun _ => none⟩

/-- Recognizer witness models with one raising model. -/
def recModelsRaise : List (Word × RecModel) :=
  [(7, raisingModel), (8, ⟨fun _ => some 2⟩)]

/-- Constant-selector witness environment: fitting `n` states yields a model
with `n` components. -/
def constEnvWit : ConstEnv where
  fit := fun n => some ⟨n, 0⟩

/-- The word loop's invariant once at least one word has been processed: the
best word is recorded in `prob_map` with the maximal value `max_prob`. -/
def ArgmaxState (st : RecInner) : Prop :=
  ∃ v w, st.maxProb = some v ∧ st.bestWord = some w ∧
    assocLookup st.probMap w = some v ∧ ∀ p ∈ st.probMap, p.2 ≤ v

/-! ### Helper lemmas -/

lemma dictInsert_fresh (d : ProbMap) (k : Word) (v : ℚ) (h : ∀ q ∈ d, q.1 ≠ k) :
    dictInsert d k v = d ++ [(k, v)] := by
  rw [dictInsert, if_neg]
  simp only [List.any_eq_true, decide_eq_true_eq, not_exists, not_and]
  intro q hq
  exact h q hq

lemma assocLookup_append_self (d : ProbMap) (k : Word) (v : ℚ)
    (h : ∀ q ∈ d, q.1 ≠ k) : assocLookup (d ++ [(k, v)]) k = some v := by
  induction d with
  | nil => simp [assocLookup]
  | cons p rest ih =>
    rw [List.cons_append, assocLookup, if_neg (h p (List.mem_cons_self p rest))]
    exact ih (fun q hq => h q (List.mem_cons_of_mem p hq))

lemma assocLookup_append_other (d : ProbMap) (k w : Word) (v : ℚ)
    (h : w ≠ k) : assocLookup (d ++ [(k, v)]) w = assocLookup d w := by
  induction d with
  | nil =>
    simp only [List.nil_append, assocLookup]
    rw [if_neg (fun hk => h hk.symm)]
  | cons p rest ih =>
    rw [List.cons_append, assocLookup, assocLookup]
    by_cases hp : p.1 = w
    · rw [if_pos hp, if_pos hp]
    · rw [if_neg hp, if_neg hp]
      exact ih

lemma assocLookup_some_mem (d : ProbMap) (w : Word) (v : ℚ)
    (h : assocLookup d w = some v) : ∃ q ∈ d, q.1 = w := by
  induction d with
  | nil => cases h
  | cons p rest ih =>
    rw [assocLookup] at h
    by_cases hp : p.1 = w
    · exact ⟨p, List.mem_cons_self p rest, hp⟩
    · rw [if_neg hp] at h
      obtain ⟨q, hq1, hq2⟩ := ih h
      exact ⟨q, List.mem_cons_of_mem p hq1, hq2⟩

lemma recWordStep_probMap (it : ℕ) (st : RecInner) (wm : Word × RecModel) :
    (recWordStep it st wm).probMap =
      dictInsert st.probMap wm.1 ((wm.2.score it).getD (-1000)) := by
  rw [recWordStep]
  split
  · rfl
  · rfl

lemma recWordFold_argmax (it : ℕ) :
    ∀ (l : List (Word × RecModel)) (st : RecInner),
      (∀ p ∈ l, ∀ q ∈ st.probMap, q.1 ≠ p.1) → (l.map Prod.fst).Nodup →
      ArgmaxState st → ArgmaxState (l.foldl (recWordStep it) st) := by
  intro l
  induction l with
  | nil =>
    intro st hfresh hnd hinv
    exact hinv
  | cons wm rest ih =>
    intro st hfresh hnd hinv
    obtain ⟨v, w, hmax, hbest, hlook, hall⟩ := hinv
    have hfreshwm : ∀ q ∈ st.probMap, q.1 ≠ wm.1 :=
      fun q hq => hfresh wm (List.mem_cons_self wm rest) q hq
    have hpm : (recWordStep it st wm).probMap =
        st.probMap ++ [(wm.1, (wm.2.score it).getD (-1000))] := by
      rw [recWordStep_probMap, dictInsert_fresh st.probMap _ _ hfreshwm]
    have hndrest : (rest.map Prod.fst).Nodup := by
      rw [List.map_cons, List.nodup_cons] at hnd
      exact hnd.2
    have hwmfresh : wm.1 ∉ rest.map Prod.fst := by
      rw [List.map_cons, List.nodup_cons] at hnd
      exact hnd.1
    have hfreshrest : ∀ p ∈ rest, ∀ q ∈ (recWordStep it st wm).probMap, q.1 ≠ p.1 := by
      intro p hp q hq
      rw [hpm] at hq
      rcases List.mem_append.mp hq with hq1 | hq1
      · exact hfresh p (List.mem_cons_of_mem wm hp) q hq1
      · rcases List.mem_singleton.mp hq1 with rfl
        intro heq
        exact hwmfresh (heq ▸ List.mem_map_of_mem Prod.fst hp)
    rw [List.foldl_cons]
    refine ih (recWordStep it st wm) hfreshrest hndrest ?_
    set s : ℚ := (wm.2.score it).getD (-1000) with hs
    by_cases hg : gtMax s st.maxProb = true
    · have hstep : recWordStep it st wm =
          ⟨dictInsert st.probMap wm.1 s, some s, some wm.1⟩ := by
        rw [recWordStep, if_pos hg]
      refine ⟨s, wm.1, by rw [hstep], by rw [hstep], ?_, ?_⟩
      · have : (recWordStep it st wm).probMap = st.probMap ++ [(wm.1, s)] := hpm
        rw [this]
        exact assocLookup_append_self st.probMap wm.1 s hfreshwm
      · intro p hp
        rw [hpm] at hp
        rcases List.mem_append.mp hp with hp1 | hp1
        · rw [hmax] at hg
          simp only [gtMax, decide_eq_true_eq] at hg
          exact le_of_lt (lt_of_le_of_lt (hall p hp1) hg)
        · rcases List.mem_singleton.mp hp1 with rfl
          exact le_refl s
    · have hstep : recWordStep it st wm =
          ⟨dictInsert st.probMap wm.1 s, st.maxProb, st.bestWord⟩ := by
        rw [recWordStep, if_neg hg]
      have hwne : w ≠ wm.1 := by
        obtain ⟨q, hq1, hq2⟩ := assocLookup_some_mem st.probMap w v hlook
        exact hq2 ▸ hfreshwm q hq1
      refine ⟨v, w, by rw [hstep]; exact hmax, by rw [hstep]; exact hbest, ?_, ?_⟩
      · rw [hpm]
        rw [assocLookup_append_other st.probMap wm.1 w s hwne]
        exact hlook
      · intro p hp
        rw [hpm] at hp
        rcases List.mem_append.mp hp with hp1 | hp1
        · exact hall p hp1
        · rcases List.mem_singleton.mp hp1 with rfl
          rw [hmax] at hg
          simp only [gtMax, decide_eq_true_eq, not_lt] at hg
          exact hg

lemma rec_probMap_fold (it : ℕ) :
    ∀ (l : List (Word × RecModel)) (st : RecInner),
      (l.foldl (recWordStep it) st).probMap =
        l.foldl (fun pm wm => dictInsert pm wm.1 ((wm.2.score it).getD (-1000)))
          st.probMap := by
  intro l
  induction l with
  | nil =>
    intro st
    rfl
  | cons wm rest ih =>
    intro st
    rw [List.foldl_cons, List.foldl_cons, ih]
    rw [recWordStep_probMap]

lemma rec_outer_fold (models : List (Word × RecModel)) :
    ∀ (items : List ℕ) (P : List ProbMap) (G : List (Option Word)) (b : Option Word),
      items.foldl (recItemStep models) ⟨P, G, b⟩ =
        ⟨P ++ items.map (itemProbMap models), G ++ guessSeq models b items,
         (guessSeq models b items).getLastD b⟩ := by
  intro items
  induction items with
  | nil =>
    intro P G b
    simp [guessSeq]
  | cons it rest ih =>
    intro P G b
    rw [List.foldl_cons]
    have hstep : recItemStep models ⟨P, G, b⟩ it =
        ⟨P ++ [(models.foldl (recWordStep it) ⟨[], none, b⟩).probMap],
         G ++ [(models.foldl (recWordStep it) ⟨[], none, b⟩).bestWord],
         (models.foldl (recWordStep it) ⟨[], none, b⟩).bestWord⟩ := rfl
    have hinner : (models.foldl (recWordStep it) ⟨[], none, b⟩).probMap =
        itemProbMap models it := by
      rw [rec_probMap_fold it models ⟨[], none, b⟩, itemProbMap]
    rw [hstep, hinner, ih]
    have hguess : guessSeq models b (it :: rest) =
        (models.foldl (recWordStep it) ⟨[], none, b⟩).bestWord ::
          guessSeq models (models.foldl (recWordStep it) ⟨[], none, b⟩).bestWord rest := by
      rw [guessSeq]
    rw [hguess, List.getLastD_cons]
    simp

lemma recognize_eq (models : List (Word × RecModel)) (items : List ℕ) :
    recognize models items =
      (items.map (itemProbMap models), guessSeq models none items) := by
  rw [recognize, rec_outer_fold models items [] [] none]
  simp

lemma guessSeq_length (models : List (Word × RecModel)) :
    ∀ (items : List ℕ) (b : Option Word),
      (guessSeq models b items).length = items.length := by
  intro items
  induction items with
  | nil =>
    intro b
    rfl
  | cons it rest ih =>
    intro b
    rw [guessSeq]
    simp only [List.length_cons, ih]

lemma guessSeq_getElem (models : List (Word × RecModel)) :
    ∀ (items : List ℕ) (b : Option Word) (idx : ℕ) (g : Option Word),
      (guessSeq models b items)[idx]? = some g →
      ∃ it b2, items[idx]? = some it ∧
        g = (models.foldl (recWordStep it) ⟨[], none, b2⟩).bestWord := by
  intro items
  induction items with
  | nil =>
    intro b idx g h
    cases h
  | cons it rest ih =>
    intro b idx g h
    rw [guessSeq] at h
    cases idx with
    | zero =>
      rw [List.getElem?_cons_zero] at h
      refine ⟨it, b, List.getElem?_cons_zero, ?_⟩
      exact (Option.some.inj h).symm
    | succ n =>
      rw [List.getElem?_cons_succ] at h
      obtain ⟨it2, b2, h1, h2⟩ := ih _ n g h
      refine ⟨it2, b2, ?_, h2⟩
      rw [List.getElem?_cons_succ]
      exact h1

lemma dictInsert_fold_eq (it : ℕ) :
    ∀ (l : List (Word × RecModel)) (pm : ProbMap),
      (∀ p ∈ l, ∀ q ∈ pm, q.1 ≠ p.1) → (l.map Prod.fst).Nodup →
      l.foldl (fun pm wm => dictInsert pm wm.1 ((wm.2.score it).getD (-1000))) pm =
        pm ++ l.map (fun wm => (wm.1, (wm.2.score it).getD (-1000))) := by
  intro l
  induction l with
  | nil =>
    intro pm hfresh hnd
    simp
  | cons wm rest ih =>
    intro pm hfresh hnd
    have hfreshwm : ∀ q ∈ pm, q.1 ≠ wm.1 :=
      fun q hq => hfresh wm (List.mem_cons_self wm rest) q hq
    rw [List.foldl_cons, dictInsert_fresh pm _ _ hfreshwm]
    rw [List.map_cons, List.nodup_cons] at hnd
    have hfreshrest : ∀ p ∈ rest, ∀ q ∈ pm ++ [(wm.1, (wm.2.score it).getD (-1000))],
        q.1 ≠ p.1 := by
      intro p hp q hq
      rcases List.mem_append.mp hq with hq1 | hq1
      · exact hfresh p (List.mem_cons_of_mem wm hp) q hq1
      · rcases List.mem_singleton.mp hq1 with rfl
        intro heq
        exact hnd.1 (heq ▸ List.mem_map_of_mem Prod.fst hp)
    rw [ih _ hfreshrest hnd.2]
    simp

lemma itemProbMap_eq_map (it : ℕ) (models : List (Word × RecModel))
    (hnd : (models.map Prod.fst).Nodup) :
    itemProbMap models it =
      models.map (fun wm => (wm.1, (wm.2.score it).getD (-1000))) := by
  rw [itemProbMap, dictInsert_fold_eq it models []
    (fun p _ q hq => absurd hq (List.not_mem_nil q)) hnd]
  simp

lemma assocLookup_map_model (it : ℕ) :
    ∀ (l : List (Word × RecModel)) (w : Word) (mo : RecModel),
      (l.map Prod.fst).Nodup → (w, mo) ∈ l →
      assocLookup (l.map (fun wm => (wm.1, (wm.2.score it).getD (-1000)))) w =
        some ((mo.score it).getD (-1000)) := by
  intro l
  induction l with
  | nil =>
    intro w mo hnd hmem
    exact absurd hmem (List.not_mem_nil _)
  | cons p rest ih =>
    intro w mo hnd hmem
    rw [List.map_cons, List.nodup_cons] at hnd
    rw [List.map_cons, assocLookup]
    rcases List.mem_cons.mp hmem with rfl | hmem2
    · rw [if_pos rfl]
    · have hwin : w ∈ rest.map Prod.fst := List.mem_map_of_mem Prod.fst hmem2
      have hpw : p.1 ≠ w := fun heq => hnd.1 (heq ▸ hwin)
      rw [if_neg hpw]
      exact ih w mo hnd.2 hmem2

/-! ### Claim C1: the recognizer's guess is an argmax of its dict -/

/-- C1: for every test item, when the models dict is non-empty, the guess
`recognize` emits is a word from models whose recorded log-likelihood in
that item's probabilities dictionary is maximal: no word in the same
dictionary has a strictly greater value. -/
theorem recognize_guess_maximal (models : List (Word × RecModel)) (items : List ℕ)
    (idx : ℕ) (g : Option Word)
    (hne : models ≠ []) (hnd : (models.map Prod.fst).Nodup)
    (hg : ((recognize models items).2)[idx]? = some g) :
    ∃ w v d, g = some w ∧ ((recognize models items).1)[idx]? = some d ∧
      assocLookup d w = some v ∧ ∀ p ∈ d, p.2 ≤ v := by
  rw [recognize_eq] at hg
  obtain ⟨it, b2, hit, hgeq⟩ := guessSeq_getElem models items none idx g hg
  obtain ⟨m, ms, rfl⟩ : ∃ m ms, models = m :: ms := by
    cases models with
    | nil => exact absurd rfl hne
    | cons m ms => exact ⟨m, ms, rfl⟩
  have hfold : (m :: ms).foldl (recWordStep it) ⟨[], none, b2⟩ =
      ms.foldl (recWordStep it) (recWordStep it ⟨[], none, b2⟩ m) := List.foldl_cons _ _
  have hstep1 : recWordStep it ⟨[], none, b2⟩ m =
      ⟨[(m.1, (m.2.score it).getD (-1000))], some ((m.2.score it).getD (-1000)),
       some m.1⟩ := by
    rw [recWordStep]
    rfl
  have harg1 : ArgmaxState (recWordStep it ⟨[], none, b2⟩ m) := by
    rw [hstep1]
    refine ⟨(m.2.score it).getD (-1000), m.1, rfl, rfl, ?_, ?_⟩
    · rw [assocLookup, if_pos rfl]
    · intro p hp
      rcases List.mem_singleton.mp hp with rfl
      exact le_refl _
  rw [List.map_cons, List.nodup_cons] at hnd
  have hfresh : ∀ p ∈ ms, ∀ q ∈ (recWordStep it ⟨[], none, b2⟩ m).probMap,
      q.1 ≠ p.1 := by
    intro p hp q hq
    rw [hstep1] at hq
    rcases List.mem_singleton.mp hq with rfl
    intro heq
    exact hnd.1 (heq ▸ List.mem_map_of_mem Prod.fst hp)
  have harg : ArgmaxState ((m :: ms).foldl (recWordStep it) ⟨[], none, b2⟩) := by
    rw [hfold]
    exact recWordFold_argmax it ms _ hfresh hnd.2 harg1
  obtain ⟨v, w, hmax, hbest, hlook, hall⟩ := harg
  have hpmeq : ((m :: ms).foldl (recWordStep it) ⟨[], none, b2⟩).probMap =
      itemProbMap (m :: ms) it := by
    rw [rec_probMap_fold it (m :: ms) ⟨[], none, b2⟩, itemProbMap]
  refine ⟨w, v, itemProbMap (m :: ms) it, ?_, ?_, ?_, ?_⟩
  · rw [hgeq, hbest]
  · rw [recognize_eq]
    simp only [List.getElem?_map, hit, Option.map_some']
  · rw [← hpmeq]
    exact hlook
  · intro p hp
    rw [← hpmeq] at hp
    exact hall p hp

/-- Witness for C1 at a concrete input: two models scoring 1 and 2, the
guess is word 8 with the maximal score 2. -/
theorem recognize_guess_maximal_witness :
    ∃ w v d, (some 8 : Option Word) = some w ∧
      ((recognize recModelsWit [0]).1)[0]? = some d ∧
      assocLookup d w = some v ∧ ∀ p ∈ d, p.2 ≤ v :=
  recognize_guess_maximal recModelsWit [0] 0 (some 8)
    (by simp [recModelsWit]) (by decide)
    (by norm_num [recognize, recItemStep, recWordStep, recModelsWit, dictInsert,
      gtMax, List.foldl_cons, List.foldl_nil])

/-! ### Claim C5: shape of the recognizer's output -/

/-- C5: `recognize` returns two lists of equal length with exactly one entry
per test item, ordered as the test set's word ids, and every probabilities
dictionary has exactly one key per word of the models dict, in model order. -/
theorem recognize_shape (models : List (Word × RecModel)) (items : List ℕ)
    (hnd : (models.map Prod.fst).Nodup) :
    (recognize models items).1.length = items.length ∧
    (recognize models items).2.length = items.length ∧
    (recognize models items).1 = items.map (itemProbMap models) ∧
    ∀ d ∈ (recognize models items).1, d.map Prod.fst = models.map Prod.fst := by
  rw [recognize_eq]
  refine ⟨by simp, by simp [guessSeq_length], rfl, ?_⟩
  intro d hd
  simp only [List.mem_map] at hd
  obtain ⟨it, -, rfl⟩ := hd
  rw [itemProbMap_eq_map it models hnd]
  simp

/-- Witness for C5 at a concrete input. -/
theorem recognize_shape_witness :
    (recognize recModelsWit [0]).1.length = ([0] : List ℕ).length ∧
    (recognize recModelsWit [0]).2.length = ([0] : List ℕ).length ∧
    (recognize recModelsWit [0]).1 = ([0] : List ℕ).map (itemProbMap recModelsWit) ∧
    ∀ d ∈ (recognize recModelsWit [0]).1, d.map Prod.fst = recModelsWit.map Prod.fst :=
  recognize_shape recModelsWit [0] (by decide)

/-! ### Claim C6: a raising score is recorded as -1000 -/

/-- C6: for every test item and model word, if scoring raises, `recognize`
records the log-likelihood `-1000` for that word in the item's dictionary
and continues with the remaining words instead of propagating. -/
theorem recognize_exception_score (models : List (Word × RecModel)) (items : List ℕ)
    (idx it : ℕ) (w : Word) (mo : RecModel)
    (hnd : (models.map Prod.fst).Nodup) (hit : items[idx]? = some it)
    (hmem : (w, mo) ∈ models) (hraise : mo.score it = none) :
    ∃ d, ((recognize models items).1)[idx]? = some d ∧
      assocLookup d w = some (-1000) := by
  rw [recognize_eq]
  refine ⟨itemProbMap models it, ?_, ?_⟩
  · simp only [List.getElem?_map, hit, Option.map_some']
  · rw [itemProbMap_eq_map it models hnd]
    rw [assocLookup_map_model it models w mo hnd hmem]
    rw [hraise]
    rfl

/-- Witness for C6 at a concrete input: model 7 raises, and -1000 is
recorded for word 7. -/
theorem recognize_exception_score_witness :
    ∃ d, ((recognize recModelsRaise [0]).1)[0]? = some d ∧
      assocLookup d 7 = some (-1000) :=
  recognize_exception_score recModelsRaise [0] 0 0 7 raisingModel
    (by decide) rfl (List.mem_cons_self _ _) rfl

/-! ### Claim C7: `SelectorConstant.select` -/

lemma bicLoop_none_of_fail (env : BicEnv) :
    ∀ (l : List ℕ), (∃ i ∈ l, i < env.lengths0 ∧ env.fitScore i = none) →
    ∀ best, bicLoop env best l = none := by
  intro l
  induction l with
  | nil =>
    rintro ⟨i, hi, -⟩
    exact absurd hi (List.not_mem_nil i)
  | cons a rest ih =>
    rintro ⟨i, hmem, hlt, hnone⟩ best
    simp only [bicLoop]
    by_cases hskip : env.lengths0 ≤ a
    · simp only [if_pos hskip]
      refine ih ⟨i, ?_, hlt, hnone⟩ best
      rcases List.mem_cons.mp hmem with h | h
      · subst h; exact absurd hlt (Nat.not_lt.mpr hskip)
      · exact h
    · simp only [if_neg hskip]
      rcases List.mem_cons.mp hmem with h | h
      · subst h
        simp only [hnone]
      · cases hfa : env.fitScore a with
        | none => simp only [hfa]
        | some logL =>
          simp only [hfa]
          exact ih ⟨i, h, hlt, hnone⟩ _

lemma rec_empty_fold : ∀ (items : List ℕ) (P : List ProbMap) (G : List (Option Word)),
    items.foldl (recItemStep []) ⟨P, G, none⟩ =
      ⟨P ++ items.map (fun _ => []), G ++ items.map (fun _ => none), none⟩ := by
  intro items
  induction items with
  | nil => intro P G; simp
  | cons it rest ih =>
    intro P G
    rw [List.foldl_cons]
    have hstep : recItemStep [] ⟨P, G, none⟩ it = ⟨P ++ [[]], G ++ [none], none⟩ := rfl
    rw [hstep, ih]
    simp

lemma bicLoop_some_spec (env : BicEnv) :
    ∀ (l : List ℕ) (best : Option (ℚ × ℕ)) (v : ℚ) (j : ℕ),
      bicLoop env best l = some (v, j) →
      (best = some (v, j) ∨ (j ∈ l ∧ j < env.lengths0 ∧
        ∃ logL, env.fitScore j = some logL ∧ v = bicScore env j logL)) ∧
      (∀ v0 j0, best = some (v0, j0) → v ≤ v0) ∧
      (∀ i ∈ l, i < env.lengths0 → ∀ logLi, env.fitScore i = some logLi →
        v ≤ bicScore env i logLi) := by
  intro l
  induction l with
  | nil =>
    intro best v j h
    simp only [bicLoop] at h
    refine ⟨Or.inl h, ?_, ?_⟩
    · intro v0 j0 hb
      rw [h] at hb
      cases hb
      exact le_refl v
    · intro i hi
      exact absurd hi (List.not_mem_nil i)
  | cons a rest ih =>
    intro best v j h
    simp only [bicLoop] at h
    by_cases hskip : env.lengths0 ≤ a
    · rw [if_pos hskip] at h
      obtain ⟨ho, hb, hl⟩ := ih best v j h
      refine ⟨?_, hb, ?_⟩
      · rcases ho with h1 | ⟨h1, h2, h3⟩
        · exact Or.inl h1
        · exact Or.inr ⟨List.mem_cons_of_mem a h1, h2, h3⟩
      · intro i hi hlt logLi hfi
        rcases List.mem_cons.mp hi with rfl | hi2
        · exact absurd hlt (Nat.not_lt.mpr hskip)
        · exact hl i hi2 hlt logLi hfi
    · rw [if_neg hskip] at h
      rcases hfa : env.fitScore a with - | logL
      · rw [hfa] at h
        cases h
      · rw [hfa] at h
        simp only at h
        by_cases hup : ltMin (bicScore env a logL) best = true
        · rw [if_pos hup] at h
          obtain ⟨ho, hb, hl⟩ := ih (some (bicScore env a logL, a)) v j h
          have hvb : v ≤ bicScore env a logL := hb _ _ rfl
          refine ⟨?_, ?_, ?_⟩
          · rcases ho with h1 | ⟨h1, h2, h3⟩
            · cases h1
              exact Or.inr ⟨List.mem_cons_self a rest, Nat.lt_of_not_le hskip,
                logL, hfa, rfl⟩
            · exact Or.inr ⟨List.mem_cons_of_mem a h1, h2, h3⟩
          · intro v0 j0 hbest
            rw [hbest] at hup
            simp only [ltMin, decide_eq_true_eq] at hup
            exact le_of_lt (lt_of_le_of_lt hvb hup)
          · intro i hi hlt logLi hfi
            rcases List.mem_cons.mp hi with rfl | hi2
            · rw [hfa] at hfi
              cases hfi
              exact hvb
            · exact hl i hi2 hlt logLi hfi
        · rw [if_neg hup] at h
          rcases hbest : best with - | q
          · rw [hbest] at hup
            exact absurd rfl hup
          · subst hbest
            obtain ⟨ho, hb, hl⟩ := ih (some q) v j h
            simp only [ltMin, decide_eq_true_eq] at hup
            have hqb : q.1 ≤ bicScore env a logL := le_of_not_lt hup
            have hvq : v ≤ q.1 := hb q.1 q.2 rfl
            refine ⟨?_, ?_, ?_⟩
            · rcases ho with h1 | ⟨h1, h2, h3⟩
              · exact Or.inl h1
              · exact Or.inr ⟨List.mem_cons_of_mem a h1, h2, h3⟩
            · intro v0 j0 hb2
              cases hb2
              exact hvq
            · intro i hi hlt logLi hfi
              rcases List.mem_cons.mp hi with rfl | hi2
              · rw [hfa] at hfi
                cases hfi
                exact le_trans hvq hqb
              · exact hl i hi2 hlt logLi hfi

/-! ### Claim C2 (corrected): `SelectorBIC.select` -/

/-- C2 counterexample: with `lengths0 = 3` the candidate with 3 states is
skipped by `i >= self.lengths[0]` although its BIC is lower, so
`SelectorBIC.select` does not return the BIC minimiser over all candidates
from `min_n_components` to `max_n_components` inclusive. -/
theorem bic_claim_counterexample :
    bicSelect bicEnvCex 2 3 = some 2 ∧
    bicScore bicEnvCex 3 100 < bicScore bicEnvCex 2 0 ∧
    ¬ bicClaimHolds bicEnvCex 2 3 := by
  refine ⟨?_, ?_, ?_⟩
  · norm_num [bicSelect, bicLoop, bicEnvCex, ltMin, bicScore, List.range']
  · norm_num [bicScore, bicEnvCex]
  · intro hclaim
    obtain ⟨logL, hfs, hall⟩ := hclaim 2
      (by norm_num [bicSelect, bicLoop, bicEnvCex, ltMin, bicScore, List.range'])
    have hlogL : logL = 0 := by
      simp only [bicEnvCex] at hfs
      norm_num at hfs
      exact hfs.symm
    subst hlogL
    have hcontra := hall 3 100 (by omega) (by omega) (by norm_num [bicEnvCex])
    norm_num [bicScore, bicEnvCex] at hcontra

/-- C2 amended: whenever `SelectorBIC.select` returns a model, that model's
state count lies in the candidate range AND below `self.lengths[0]`, and its
BIC score is minimal among the candidates that satisfy both conditions (the
remaining candidates are skipped; a fit or score failure instead makes the
result `None`). -/
theorem bic_select_restricted_argmin (env : BicEnv) (minC maxC j : ℕ)
    (h : bicSelect env minC maxC = some j) :
    minC ≤ j ∧ j ≤ maxC ∧ j < env.lengths0 ∧
    ∃ logL, env.fitScore j = some logL ∧
      ∀ i logLi, minC ≤ i → i ≤ maxC → i < env.lengths0 →
        env.fitScore i = some logLi → bicScore env j logL ≤ bicScore env i logLi := by
  rw [bicSelect] at h
  rcases hb : bicLoop env none (List.range' minC (maxC + 1 - minC)) with - | p
  · rw [hb] at h
    cases h
  · rw [hb] at h
    simp only [Option.map_some', Option.some.injEq] at h
    obtain ⟨ho, -, hl⟩ := bicLoop_some_spec env _ none p.1 p.2 (by rw [hb])
    rw [h] at ho
    rcases ho with habs | ⟨hmem, hlt, logL, hfs, hveq⟩
    · cases habs
    · rw [List.mem_range'_1] at hmem
      refine ⟨hmem.1, by omega, hlt, logL, hfs, ?_⟩
      intro i logLi h1 h2 h3 h4
      have hle := hl i (by rw [List.mem_range'_1]; omega) h3 logLi h4
      rw [hveq] at hle
      exact hle

/-- Witness for the amended C2 at a concrete environment. -/
theorem bic_select_restricted_argmin_witness :
    2 ≤ 2 ∧ 2 ≤ 3 ∧ 2 < bicEnvWit.lengths0 ∧
    ∃ logL, bicEnvWit.fitScore 2 = some logL ∧
      ∀ i logLi, 2 ≤ i → i ≤ 3 → i < bicEnvWit.lengths0 →
        bicEnvWit.fitScore i = some logLi →
        bicScore bicEnvWit 2 logL ≤ bicScore bicEnvWit i logLi :=
  bic_select_restricted_argmin bicEnvWit 2 3 2
    (by norm_num [bicSelect, bicLoop, bicEnvWit, ltMin, bicScore, List.range'])

lemma runBestP_some_spec :
    ∀ (l : List (ℚ × ℕ)) (best : Option (ℚ × ℕ)) (v : ℚ) (j : ℕ),
      runBestP best l = some (v, j) →
      (best = some (v, j) ∨ (v, j) ∈ l) ∧
      (∀ v0 j0, best = some (v0, j0) → v0 ≤ v) ∧
      (∀ p ∈ l, p.1 ≤ v) := by
  intro l
  induction l with
  | nil =>
    intro best v j h
    simp only [runBestP] at h
    refine ⟨Or.inl h, ?_, ?_⟩
    · intro v0 j0 hb
      rw [h] at hb
      cases hb
      exact le_refl v
    · intro p hp
      exact absurd hp (List.not_mem_nil p)
  | cons p rest ih =>
    intro best v j h
    simp only [runBestP] at h
    by_cases hup : gtNeg p.1 best = true
    · rw [if_pos hup] at h
      obtain ⟨ho, hb, hl⟩ := ih (some p) v j h
      have hpv : p.1 ≤ v := hb p.1 p.2 rfl
      refine ⟨?_, ?_, ?_⟩
      · rcases ho with h1 | h1
        · cases h1
          exact Or.inr (List.mem_cons_self _ rest)
        · exact Or.inr (List.mem_cons_of_mem p h1)
      · intro v0 j0 hb0
        rw [hb0] at hup
        simp only [gtNeg, decide_eq_true_eq] at hup
        exact le_of_lt (lt_of_lt_of_le hup hpv)
      · intro q hq
        rcases List.mem_cons.mp hq with rfl | hq2
        · exact hpv
        · exact hl q hq2
    · rw [if_neg hup] at h
      rcases hbest : best with - | q
      · rw [hbest] at hup
        exact absurd rfl hup
      · subst hbest
        obtain ⟨ho, hb, hl⟩ := ih (some q) v j h
        simp only [gtNeg, decide_eq_true_eq] at hup
        have hpq : p.1 ≤ q.1 := le_of_not_lt hup
        have hqv : q.1 ≤ v := hb q.1 q.2 rfl
        refine ⟨?_, ?_, ?_⟩
        · rcases ho with h1 | h1
          · exact Or.inl h1
          · exact Or.inr (List.mem_cons_of_mem p h1)
        · intro v0 j0 hb0
          cases hb0
          exact hqv
        · intro r hr
          rcases List.mem_cons.mp hr with rfl | hr2
          · exact le_trans hpq hqv
          · exact hl r hr2

lemma runBestP_isSome :
    ∀ (l : List (ℚ × ℕ)) (q : ℚ × ℕ), ∃ v j, runBestP (some q) l = some (v, j) := by
  intro l
  induction l with
  | nil =>
    intro q
    exact ⟨q.1, q.2, rfl⟩
  | cons p rest ih =>
    intro q
    simp only [runBestP]
    by_cases hup : gtNeg p.1 (some q) = true
    · rw [if_pos hup]
      exact ih p
    · rw [if_neg hup]
      exact ih q

lemma cvGt_map_fst (v : ℚ) (s : Option (ℚ × ℕ)) :
    cvGt v (s.map Prod.fst) = gtNeg v s := by
  cases s with
  | none => rfl
  | some q => rfl

lemma cvFoldLoop_allgood (env : CvEnv) (i : ℕ)
    (hfit : ∀ k, env.fitOk i k = true) (hsc : ∀ k, (env.score i k).isSome = true) :
    ∀ (n s : ℕ) (total : ℚ) (last : Option (ℕ × ℕ)), 1 ≤ n →
      cvFoldLoop env i total last (List.range' s n) =
        (total + ((List.range' s n).map (fun k => (env.score i k).getD 0)).sum,
         some (i, s + n - 1)) := by
  intro n
  induction n with
  | zero =>
    intro s total last hn
    exact absurd hn (by omega)
  | succ m ih =>
    intro s total last hn
    rw [List.range'_succ]
    obtain ⟨L, hL⟩ := Option.isSome_iff_exists.mp (hsc s)
    rcases Nat.eq_zero_or_pos m with rfl | hm
    · simp only [List.range']
      simp only [cvFoldLoop, hfit s, if_true, hL]
      simp [hL]
    · simp only [cvFoldLoop, hfit s, if_true, hL]
      rw [ih (s + 1) (total + L) (some (i, s)) hm]
      simp only [List.map_cons, List.sum_cons, hL, Option.getD_some]
      have harith : s + 1 + m - 1 = s + (m + 1) - 1 := by omega
      rw [harith, add_assoc]

lemma cvCandLoop_allgood (env : CvEnv) (ns : ℕ) (hns : 1 ≤ ns)
    (hfit : ∀ i k, env.fitOk i k = true) (hsc : ∀ i k, (env.score i k).isSome = true) :
    ∀ (l : List ℕ) (s : Option (ℚ × ℕ)) (last : Option (ℕ × ℕ)),
      cvCandLoop env ns (s.map Prod.fst) (s.map (fun p => (p.2, ns - 1))) last l =
        Except.ok ((runBestP s (l.map (fun i => (cvAvg env ns i, i)))).map
          (fun p => (p.2, ns - 1))) := by
  intro l
  induction l with
  | nil =>
    intro s last
    simp only [cvCandLoop, List.map_nil, runBestP]
  | cons i rest ih =>
    intro s last
    have hfold : cvFoldLoop env i 0 last (List.range ns) =
        (((List.range ns).map (fun k => (env.score i k).getD 0)).sum, some (i, ns - 1)) := by
      rw [List.range_eq_range']
      rw [cvFoldLoop_allgood env i (hfit i) (hsc i) ns 0 0 last hns]
      simp only [zero_add]
    simp only [cvCandLoop, hfold]
    have havg : ((List.range ns).map (fun k => (env.score i k).getD 0)).sum / ((ns : ℕ) : ℚ) =
        cvAvg env ns i := rfl
    rw [havg, cvGt_map_fst (cvAvg env ns i) s]
    simp only [List.map_cons, runBestP]
    by_cases hup : gtNeg (cvAvg env ns i) s = true
    · rw [if_pos hup, if_pos hup]
      have hrec := ih (some (cvAvg env ns i, i)) (some (i, ns - 1))
      simp only [Option.map_some'] at hrec
      exact hrec
    · rw [if_neg hup, if_neg hup]
      exact ih s (some (i, ns - 1))

/-! ### Claim C3 (corrected): `SelectorCV.select` -/

/-- C3 counterexample: with `min_n_components = 2` and
`max_n_components = 3`, candidate 3 has the strictly highest fold average
but `range(self.min_n_components, self.max_n_components)` never evaluates
it, so the claim's inclusive-range argmax property fails. -/
theorem cv_claim_counterexample :
    cvSelect cvEnvCex 2 3 = Except.ok (some (2, 1)) ∧
    cvAvg cvEnvCex 2 2 < cvAvg cvEnvCex 2 3 ∧
    ¬ cvClaimHolds cvEnvCex 2 3 := by
  have hsel : cvSelect cvEnvCex 2 3 = Except.ok (some (2, 1)) := by
    norm_num [cvSelect, cvCandLoop, cvFoldLoop, cvEnvCex, cvGt, List.range',
      List.range_succ]
  refine ⟨hsel, ?_, ?_⟩
  · norm_num [cvAvg, cvEnvCex, List.range_succ]
  · intro hclaim
    have hcontra := hclaim (2, 1) hsel 3 (by omega) (by omega)
    norm_num [cvAvg, cvEnvCex, List.range_succ] at hcontra

/-- C3 amended: `SelectorCV.select` evaluates the candidate state counts
from `min_n_components` to `max_n_components` EXCLUSIVE (the upper bound is
never evaluated); when every fold fit and score succeeds it returns the
model fitted on the last fold of the first candidate whose average
log-likelihood (total fold score divided by `num_splits`) is highest among
the evaluated candidates. -/
theorem cv_select_argmax_exclusive (env : CvEnv) (minC maxC : ℕ)
    (h2 : 2 ≤ minC) (hlen : minC ≤ env.seqLen) (hlt : minC < maxC)
    (hfit : ∀ i k, env.fitOk i k = true) (hsc : ∀ i k, (env.score i k).isSome = true) :
    ∃ j, cvSelect env minC maxC = Except.ok (some (j, minC - 1)) ∧
      minC ≤ j ∧ j < maxC ∧
      ∀ i, minC ≤ i → i < maxC → cvAvg env minC i ≤ cvAvg env minC j := by
  have hnotlt : ¬ env.seqLen < minC := by omega
  have hnot2 : ¬ minC < 2 := by omega
  rw [cvSelect, if_neg hnotlt, if_neg hnot2]
  have hloop := cvCandLoop_allgood env minC (by omega) hfit hsc
    (List.range' minC (maxC - minC)) none none
  simp only [Option.map_none'] at hloop
  rw [hloop]
  obtain ⟨m, hm⟩ : ∃ m, maxC - minC = m + 1 := ⟨maxC - minC - 1, by omega⟩
  rw [hm, List.range'_succ, List.map_cons]
  have hhead : runBestP none ((cvAvg env minC minC, minC) ::
      (List.range' (minC + 1) m).map (fun i => (cvAvg env minC i, i))) =
      runBestP (some (cvAvg env minC minC, minC))
        ((List.range' (minC + 1) m).map (fun i => (cvAvg env minC i, i))) := by
    simp only [runBestP, gtNeg, if_true]
  rw [hhead]
  obtain ⟨v, j, hvj⟩ := runBestP_isSome _ (cvAvg env minC minC, minC)
  rw [hvj]
  obtain ⟨ho, hb, hl⟩ := runBestP_some_spec _ _ v j hvj
  have hveq : v = cvAvg env minC j := by
    rcases ho with h1 | h1
    · cases h1
      rfl
    · obtain ⟨i, -, hi2⟩ := List.mem_map.mp h1
      cases hi2
      rfl
  have hjmem : minC ≤ j ∧ j < maxC := by
    rcases ho with h1 | h1
    · cases h1
      omega
    · obtain ⟨i, hi1, hi2⟩ := List.mem_map.mp h1
      cases hi2
      rw [List.mem_range'_1] at hi1
      omega
  refine ⟨j, rfl, hjmem.1, hjmem.2, ?_⟩
  intro i hi1 hi2
  rw [← hveq]
  rcases Nat.eq_or_lt_of_le hi1 with rfl | higt
  · exact hb _ _ rfl
  · exact hl (cvAvg env minC i, i)
      (List.mem_map.mpr ⟨i, by rw [List.mem_range'_1]; omega, rfl⟩)

/-- Witness for the amended C3 at a concrete environment. -/
theorem cv_select_argmax_exclusive_witness :
    ∃ j, cvSelect cvEnvWit 2 4 = Except.ok (some (j, 2 - 1)) ∧
      2 ≤ j ∧ j < 4 ∧
      ∀ i, 2 ≤ i → i < 4 → cvAvg cvEnvWit 2 i ≤ cvAvg cvEnvWit 2 j :=
  cv_select_argmax_exclusive cvEnvWit 2 4 (by omega) (by decide) (by omega)
    (fun _ _ => rfl) (fun _ _ => rfl)

lemma runBestP_append :
    ∀ (l1 l2 : List (ℚ × ℕ)) (best : Option (ℚ × ℕ)),
      runBestP best (l1 ++ l2) = runBestP (runBestP best l1) l2 := by
  intro l1
  induction l1 with
  | nil =>
    intro l2 best
    rfl
  | cons p rest ih =>
    intro l2 best
    simp only [List.cons_append, runBestP]
    exact ih l2 _

lemma dicWordLoop_eq_runBestP (env : DicEnv) (i : ℕ) (ts : ℚ) :
    ∀ (ws : List Word) (others : ℚ) (m : ℕ) (best : Option (ℚ × ℕ)),
      dicWordLoop env i ts others m best ws =
        runBestP best ((dicValues env i ts others m ws).map (fun v => (v, i))) := by
  intro ws
  induction ws with
  | nil =>
    intro others m best
    rfl
  | cons w rest ih =>
    intro others m best
    simp only [dicWordLoop, dicValues]
    by_cases hthis : w = env.thisWord
    · rw [if_pos hthis, if_pos hthis]
      exact ih others m best
    · rw [if_neg hthis, if_neg hthis]
      by_cases hlen : env.lengths0 w < i
      · rw [if_pos hlen, if_pos hlen]
        exact ih others m best
      · rw [if_neg hlen, if_neg hlen]
        by_cases hfit : env.fitOther w i = true
        · rw [if_pos hfit, if_pos hfit]
          simp only [List.map_cons, runBestP]
          exact ih _ _ _
        · rw [if_neg hfit, if_neg hfit]
          rfl

lemma dicCandLoop_eq_runBestP (env : DicEnv) :
    ∀ (l : List ℕ) (best : Option (ℚ × ℕ)),
      dicCandLoop env best l =
        runBestP best (l.flatMap (fun i => (effScores env i).map (fun v => (v, i)))) := by
  intro l
  induction l with
  | nil =>
    intro best
    rfl
  | cons i rest ih =>
    intro best
    simp only [dicCandLoop, List.flatMap_cons]
    by_cases hskip : env.lengths0 env.thisWord < i
    · rw [if_pos hskip]
      have heff : effScores env i = [] := by
        rw [effScores, if_pos hskip]
      rw [heff]
      simp only [List.map_nil, List.nil_append]
      exact ih best
    · rw [if_neg hskip]
      rcases hts : env.thisScore i with - | ts
      · have heff : effScores env i = [] := by
          rw [effScores, if_neg hskip, hts]
        rw [heff]
        simp only [List.map_nil, List.nil_append]
        exact ih best
      · have heff : effScores env i = dicValues env i ts 0 0 env.words := by
          rw [effScores, if_neg hskip, hts]
        rw [heff]
        have hgoal : dicCandLoop env (dicWordLoop env i ts 0 0 best env.words) rest =
            runBestP best ((dicValues env i ts 0 0 env.words).map (fun v => (v, i)) ++
              rest.flatMap (fun i => (effScores env i).map (fun v => (v, i)))) := by
          rw [runBestP_append]
          rw [ih (dicWordLoop env i ts 0 0 best env.words)]
          rw [dicWordLoop_eq_runBestP]
        exact hgoal

/-! ### Claim C4 (corrected): `SelectorDIC.select` -/

/-- C4 counterexample: the best-score update sits inside the other-word loop
and uses the running partial average, so at 3 states the intermediate value
`10 - (1/1)*(-1000) = 1010` wins although the final DIC of 3 states is `-5`,
strictly below the final DIC `5` of 2 states; the selector returns the
3-state model while the final-DIC maximiser is the 2-state model. -/
theorem dic_claim_counterexample :
    dicSelect dicEnvCex 2 3 = some 3 ∧
    dicFullScore dicEnvCex 2 = some 5 ∧
    dicFullScore dicEnvCex 3 = some (-5) ∧
    ¬ dicClaimHolds dicEnvCex 2 3 := by
  have hsel : dicSelect dicEnvCex 2 3 = some 3 := by
    norm_num [dicSelect, dicCandLoop, dicWordLoop, dicEnvCex, gtNeg, List.range']
  have hf2 : dicFullScore dicEnvCex 2 = some 5 := by
    norm_num [dicFullScore, dicOtherWords, dicEnvCex, List.filter]
  have hf3 : dicFullScore dicEnvCex 3 = some (-5) := by
    norm_num [dicFullScore, dicOtherWords, dicEnvCex, List.filter]
  refine ⟨hsel, hf2, hf3, ?_⟩
  intro hclaim
  have hcontra := hclaim 3 hsel 2 5 (-5) (by omega) (by omega) hf2 hf3
  norm_num at hcontra

/-- C4 amended: `SelectorDIC.select` returns the model for the candidate
state count that attains the maximal RUNNING DIC score, where for a
candidate the running score is recomputed after each processed other word as
`logL(this_word) - (1/m) * (sum of the first m processed other-word
scores)`: other words with `i > lengths[0]` are skipped, a failed other-word
scoring counts as 0, an other-word fit failure truncates the candidate's
values (keeping updates already made), and candidates that are skipped
(`i > self.lengths[0]`) or whose own fit/score fails contribute no values. -/
theorem dic_select_running_argmax (env : DicEnv) (minC maxC j : ℕ)
    (h : dicSelect env minC maxC = some j) :
    minC ≤ j ∧ j ≤ maxC ∧
    ∃ v, v ∈ effScores env j ∧
      ∀ i, minC ≤ i → i ≤ maxC → ∀ u ∈ effScores env i, u ≤ v := by
  rw [dicSelect, dicCandLoop_eq_runBestP] at h
  rcases hb : runBestP none ((List.range' minC (maxC + 1 - minC)).flatMap
      (fun i => (effScores env i).map (fun v => (v, i)))) with - | p
  · rw [hb] at h
    cases h
  · rw [hb] at h
    simp only [Option.map_some', Option.some.injEq] at h
    obtain ⟨ho, -, hl⟩ := runBestP_some_spec _ none p.1 p.2 (by rw [hb])
    rw [h] at ho
    rcases ho with habs | hmem
    · cases habs
    · obtain ⟨i0, hi0, hmem2⟩ := List.mem_flatMap.mp hmem
      obtain ⟨v0, hv0, hv0eq⟩ := List.mem_map.mp hmem2
      have hv0j : v0 = p.1 ∧ i0 = j := by
        have h1 := congrArg Prod.fst hv0eq
        have h2 := congrArg Prod.snd hv0eq
        exact ⟨h1, h2⟩
      obtain ⟨rfl, rfl⟩ := hv0j
      rw [List.mem_range'_1] at hi0
      refine ⟨hi0.1, by omega, p.1, hv0, ?_⟩
      intro i h1 h2 u hu
      exact hl (u, i) (List.mem_flatMap.mpr ⟨i, by rw [List.mem_range'_1]; omega,
        List.mem_map.mpr ⟨u, hu, rfl⟩⟩)

/-- Witness for the amended C4 at a concrete environment. -/
theorem dic_select_running_argmax_witness :
    2 ≤ 2 ∧ 2 ≤ 3 ∧
    ∃ v, v ∈ effScores dicEnvWit 2 ∧
      ∀ i, 2 ≤ i → i ≤ 3 → ∀ u ∈ effScores dicEnvWit i, u ≤ v :=
  dic_select_running_argmax dicEnvWit 2 3 2
    (by norm_num [dicSelect, dicCandLoop, dicWordLoop, dicEnvWit, gtNeg, List.range'])

/-! ### Claim C7: `SelectorConstant.select` -/

/-- C7: `SelectorConstant.select` always fits a GaussianHMM with exactly
`n_constant` hidden states, ignoring `min_n_components` and
`max_n_components`, and returns the fitted model, or `None` if and only if
the fit raises an exception. -/
theorem constant_select_spec (env : ConstEnv) (nConstant minC maxC altMin altMax : ℕ)
    (hfit : ∀ n mdl, env.fit n = some mdl → mdl.nComponents = n) :
    (constantSelect env nConstant minC maxC = none ↔ env.fit nConstant = none) ∧
    (∀ mdl, constantSelect env nConstant minC maxC = some mdl → mdl.nComponents = nConstant) ∧
    constantSelect env nConstant altMin altMax = constantSelect env nConstant minC maxC :=
  ⟨Iff.rfl, fun mdl h => hfit _ _ h, rfl⟩

/-- Witness for C7 at a concrete environment. -/
theorem constant_select_spec_witness :
    (constantSelect constEnvWit 3 2 10 = none ↔ constEnvWit.fit 3 = none) ∧
    (∀ mdl, constantSelect constEnvWit 3 2 10 = some mdl → mdl.nComponents = 3) ∧
    constantSelect constEnvWit 3 0 99 = constantSelect constEnvWit 3 2 10 :=
  constant_select_spec constEnvWit 3 2 10 0 99 (fun n mdl h => by
    simp only [constEnvWit] at h
    cases h
    rfl)

/-! ### Claim C8: `recognize` with an empty models dict -/

/-- C8: when the models dict is empty, `recognize` returns an empty
probabilities dictionary and the guess `None` for every test item — the
best-word variable is initialised to `None` once before the item loop and is
never updated when there are no models to score. -/
theorem recognize_empty_models (items : List ℕ) :
    recognize [] items =
      (items.map (fun _ => ([] : ProbMap)), items.map (fun _ => (none : Option Word))) := by
  simp [recognize, rec_empty_fold]

/-! ### Claim C9: `SelectorCV.select` with too few sequences -/

/-- C9: `SelectorCV.select` returns `None` without fitting any model (the
result does not depend on the fitting or scoring oracle at all) whenever the
number of training sequences is strictly smaller than `min_n_components`,
which it also uses as the number of folds. -/
theorem cv_select_none_of_few_sequences (seqLen minC maxC : ℕ)
    (fitOk : ℕ → ℕ → Bool) (sc : ℕ → ℕ → Option ℚ) (h : seqLen < minC) :
    cvSelect ⟨seqLen, fitOk, sc⟩ minC maxC = Except.ok none := by
  simp [cvSelect, h]

/-- Witness for C9 at a concrete input. -/
theorem cv_select_none_of_few_sequences_witness :
    cvSelect ⟨1, fun _ _ => true, fun _ _ => some 0⟩ 2 10 = Except.ok none :=
  cv_select_none_of_few_sequences 1 2 10 _ _ (by omega)

/-! ### Claim C10: `SelectorBIC.select` returns `None` on any failure -/

/-- C10: `SelectorBIC.select` returns `None` as soon as fitting or scoring
raises for any candidate state count, discarding any best-scoring model
already found, so its result is `None` whenever any non-skipped candidate
(one with `i < self.lengths[0]`) fails. -/
theorem bic_select_none_of_any_failure (env : BicEnv) (minC maxC : ℕ)
    (h : ∃ i, minC ≤ i ∧ i ≤ maxC ∧ i < env.lengths0 ∧ env.fitScore i = none) :
    bicSelect env minC maxC = none := by
  obtain ⟨i, h1, h2, h3, h4⟩ := h
  have hmem : i ∈ List.range' minC (maxC + 1 - minC) := by
    rw [List.mem_range'_1]; omega
  rw [bicSelect, bicLoop_none_of_fail env _ ⟨i, hmem, h3, h4⟩ none]
  rfl

/-- Witness for C10 at a concrete environment where every fit raises. -/
theorem bic_select_none_of_any_failure_witness :
    bicSelect bicEnvFail 2 3 = none :=
  bic_select_none_of_any_failure bicEnvFail 2 3
    ⟨2, by omega, by omega, by decide, rfl⟩

end SignHMM
